import Mathlib

/-!
Verification of the RISC-V CPU simulator's architectural units
(`ScalarProcessor/units/include/Basics.h`): bit primitives, PC, IMEM,
RegisterFile, IMM generator, ALU, WE_GEN and DMEM, embedded shallowly
over `Nat`/`Int` (machine words are naturals below `2 ^ 32`, signed
interpretation is explicit).
-/

namespace RiscvSim

/-- Embedding of `sub_range<L, R>(b)`: bits `L..R` of `w` (inclusive),
`L - R + 1` bits wide. -/
def subRange (L R w : Nat) : Nat := (w / 2 ^ R) % 2 ^ (L - R + 1)

/-- Embedding of `SignBit<N>(imm)`: the top bit (index `N - 1`) of an
`N`-bit value. -/
def signBitN (n w : Nat) : Bool := w.testBit (n - 1)

/-- Embedding of `SignExt<N>(SE)`: `N` replicas of the bit `SE`. -/
def signExtN (n : Nat) (b : Bool) : Nat := if b then 2 ^ n - 1 else 0

/-- Two's-complement reading of an `n`-bit value, as used by the C++
`static_cast<int32_t>` (with `n = 32`) and by the spec's phrase
"sign-extended". -/
def toSigned (n v : Nat) : Int := if v < 2 ^ (n - 1) then (v : Int) else (v : Int) - 2 ^ n

/-- Truncation of an integer to an unsigned 32-bit value, as performed by
storing into a `bitset<32>` / `uint32_t`. -/
def encode32 (i : Int) : Nat := (i % (2 ^ 32 : Int)).toNat

/-! Program counter (`struct PC`).  The stored field `pc_` is the word
index; `realVal` multiplies by 4, `operator+` divides the byte offset
by 4 after a `static_cast<int32_t>`. -/

structure PC where
  pc_ : Nat

/-- Embedding of `PC::operator+(uint32_t offset)` (the C++ code asserts
`offset % 4 == 0`): `pc_ + static_cast<int32_t>(offset) / 4`, the sum
taken as `uint32_t`. -/
def PC.addOffset (p : PC) (offset : Nat) : PC :=
  ⟨encode32 ((p.pc_ : Int) + Int.tdiv (toSigned 32 offset) 4)⟩

/-- Embedding of `PC::operator=(uint32_t pc)` (the C++ code asserts
`pc % 4 == 0`): stores `pc` into `pc_` unscaled. -/
def PC.assign (_p : PC) (pc : Nat) : PC := ⟨pc⟩

/-- Embedding of `PC::val()`. -/
def PC.val (p : PC) : Nat := p.pc_

/-- Embedding of `PC::realVal()`: `pc_ * 4` as `uint32_t`. -/
def PC.realVal (p : PC) : Nat := (p.pc_ * 4) % 2 ^ 32

/-! Instruction memory (`class IMEM`). -/

structure IMEM where
  imem_ : List Nat

/-- Embedding of `IMEM::isEndOfIMEM`: `pc.val() == imem_.size()`. -/
def IMEM.isEndOfIMEM (im : IMEM) (p : PC) : Bool := p.val == im.imem_.length

/-- Embedding of `IMEM::getInstr`: `imem_.at(pc.val())`; `none` models the
`std::out_of_range` exception `at` throws past the end. -/
def IMEM.getInstr (im : IMEM) (p : PC) : Option Nat := im.imem_.get? p.val

/-! Register file (`class RegisterFile`): 32 registers, value-initialized
to zero; `Write`/`Read` index the vector directly, with no special case
for index 0. -/

structure RegisterFile where
  regs_ : Nat → Nat

/-- The initial register file: `std::vector<std::bitset<32>>(32)`,
all zero. -/
def RegisterFile.init : RegisterFile := ⟨fun _ => 0⟩

/-- Embedding of `RegisterFile::Write(A3, D3)`: `regs_[A3] = D3`. -/
def RegisterFile.Write (rf : RegisterFile) (A3 D3 : Nat) : RegisterFile :=
  ⟨fun i => if i = A3 then D3 else rf.regs_ i⟩

/-- Embedding of `RegisterFile::Read(A)`: `regs_.at(A)`. -/
def RegisterFile.Read (rf : RegisterFile) (A : Nat) : Nat := rf.regs_ A

/-! Write-enable gating (`class WE_GEN`). -/

structure WE_GEN where
  mem_we_ : Bool
  wb_we_ : Bool
  ebreak_ : Bool

/-- Embedding of the `WE_GEN(mem_we, wb_we, ebreak, v_ex)` constructor:
each enable is conjoined with the validity bit `v_ex`. -/
def WE_GEN.make (mem_we wb_we ebreak v_ex : Bool) : WE_GEN :=
  ⟨mem_we && v_ex, wb_we && v_ex, ebreak && v_ex⟩

/-- Embedding of `WE_GEN::MEM_WE()`. -/
def WE_GEN.MEM_WE (x : WE_GEN) : Bool := x.mem_we_

/-- Embedding of `WE_GEN::WB_WE()`. -/
def WE_GEN.WB_WE (x : WE_GEN) : Bool := x.wb_we_

/-- Embedding of `WE_GEN::EBREAK()`. -/
def WE_GEN.EBREAK (x : WE_GEN) : Bool := x.ebreak_

/-! Data memory (`class DMEM`): a `std::map<uint32_t, std::bitset<32>>`
keyed by the raw address; `operator[]` default-inserts a zero word, which
`Load` performs even on a read, so the state is a partial map. -/

inductive Width
  | BYTE
  | BYTE_U
  | HALF
  | HALF_U
  | WORD

structure DMEM where
  dmem_ : Nat → Option Nat

/-- The default-constructed, empty data memory. -/
def DMEM.empty : DMEM := ⟨fun _ => none⟩

/-- Embedding of `DMEM::Store(WD, A, w_type)`: `dmem_[A]` is assigned the
whole word `WD`, or its zero-extended low byte / half word. -/
def DMEM.Store (m : DMEM) (WD A : Nat) (w_type : Width) : DMEM :=
  match w_type with
  | .BYTE | .BYTE_U => ⟨fun k => if k = A then some (subRange 7 0 WD) else m.dmem_ k⟩
  | .HALF | .HALF_U => ⟨fun k => if k = A then some (subRange 15 0 WD) else m.dmem_ k⟩
  | .WORD => ⟨fun k => if k = A then some WD else m.dmem_ k⟩

/-- Embedding of `DMEM::Load(A, w_type)`: returns the loaded value and the
post-load map, since `dmem_[A]` default-inserts a zero word when `A` is
absent. -/
def DMEM.Load (m : DMEM) (A : Nat) (w_type : Width) : Nat × DMEM :=
  let stored := (m.dmem_ A).getD 0
  let m' : DMEM := ⟨fun k => if k = A then some stored else m.dmem_ k⟩
  match w_type with
  | .BYTE =>
      let byte := subRange 7 0 stored
      (signExtN 24 (signBitN 8 byte) * 2 ^ 8 + byte, m')
  | .BYTE_U => (subRange 7 0 stored, m')
  | .HALF =>
      let half_word := subRange 15 0 stored
      (signExtN 16 (signBitN 16 half_word) * 2 ^ 16 + half_word, m')
  | .HALF_U => (subRange 15 0 stored, m')
  | .WORD => (stored, m')

/-! Sequences of data-memory operations, for stating which states are
reachable and what a client can observe. -/

inductive MemOp
  | store (wd a : Nat) (w : Width)
  | load (a : Nat) (w : Width)

/-- The state transformer of one memory operation. -/
def DMEM.step (m : DMEM) (op : MemOp) : DMEM :=
  match op with
  | .store wd a w => m.Store wd a w
  | .load a w => (m.Load a w).2

/-- Running a sequence of memory operations. -/
def DMEM.run (m : DMEM) (ops : List MemOp) : DMEM := ops.foldl DMEM.step m

/-- Whether an operation is a store targeting address `A`. -/
def MemOp.storesTo (A : Nat) : MemOp → Bool
  | .store _ a _ => a == A
  | .load _ _ => false

/-! Claims about the register file, PC, IMEM, WE_GEN and word round trips. -/

/-- Claim C1, counterexample: `RegisterFile::Write` with destination 0 does
not discard the write; reading register 0 afterwards returns the written
value 1, not 0. -/
theorem c1_counterexample :
    (RegisterFile.init.Write 0 1).Read 0 = 1 ∧
      (((RegisterFile.init.Write 0 1).Read 0 == 0) = false) := by
  decide

/-- Claim C1 (amended): a `Write` with destination index 0 updates register
0 like any other index, and `Read(0)` afterwards returns the value written;
the register file itself does not hardwire register 0 to zero. -/
theorem c1_theorem : ∀ (rf : RegisterFile) (D : Nat), (rf.Write 0 D).Read 0 = D := by
  intro rf D
  simp [RegisterFile.Write, RegisterFile.Read]

/-- Claim C2, evaluation at the failing input: after `Store(0x01020304, 0,
WORD)`, `Load(1, BYTE_U)` reads map key 1 (never stored) and returns 0,
while byte 1 of the stored word is 3. -/
theorem c2_code_eval :
    ((DMEM.empty.Store 0x01020304 0 .WORD).Load 1 .BYTE_U).1 = 0 ∧
      subRange 15 8 0x01020304 = 3 := by
  constructor
  · rfl
  · decide

/-- Claim C3, counterexample: with one instruction (`n = 1`) and a PC of
word index 2 (which is `≥ n`), `isEndOfIMEM` returns `false`: the check is
an equality test, not `≥`. -/
theorem c3_counterexample :
    2 ≥ (IMEM.mk [0]).imem_.length ∧ (IMEM.mk [0]).isEndOfIMEM ⟨2⟩ = false := by
  decide

/-- Claim C3 (amended): the end-of-IMEM condition is detected exactly when
the PC's word index equals the instruction count `n`; a word index strictly
beyond `n` is not detected. -/
theorem c3_theorem :
    ∀ (im : IMEM) (p : PC), im.isEndOfIMEM p = true ↔ p.val = im.imem_.length := by
  intro im p
  simp [IMEM.isEndOfIMEM]

/-- Claim C4, evaluation at the failing input: after the assignment
`p = 4` (a 4-byte-aligned byte address), `realVal()` returns 16, not 4:
`operator=` stores the byte address into the word-index field without
dividing by 4, while `realVal` multiplies the field by 4. -/
theorem c4_code_eval :
    ((PC.mk 0).assign 4).realVal = 16 ∧ ((((PC.mk 0).assign 4).realVal == 4) = false) := by
  decide

/-- Claim C6: a `WE_GEN` latched with validity `v_ex = false` reports all
three enables (`MEM_WE`, `WB_WE`, `EBREAK`) as `false`, for every value of
the raw enable inputs: a bubble can commit neither a store, nor a register
write, nor the halt. -/
theorem c6_theorem :
    ∀ (mem_we wb_we ebreak : Bool),
      (WE_GEN.make mem_we wb_we ebreak false).MEM_WE = false ∧
        (WE_GEN.make mem_we wb_we ebreak false).WB_WE = false ∧
          (WE_GEN.make mem_we wb_we ebreak false).EBREAK = false := by
  intro mem_we wb_we ebreak
  simp [WE_GEN.make, WE_GEN.MEM_WE, WE_GEN.WB_WE, WE_GEN.EBREAK]

/-- Claim C9: a word-width store followed by a word-width load of the same
address returns exactly the stored word, in every data-memory state. -/
theorem c9_theorem :
    ∀ (m : DMEM) (A W : Nat), ((m.Store W A .WORD).Load A .WORD).1 = W := by
  intro m A W
  simp [DMEM.Store, DMEM.Load]

/-! Lemmas about the data-memory map. -/

/-- The word a client would observe at key `A`: the stored word if the key
is present, else the default zero word. -/
def DMEM.readAt (m : DMEM) (A : Nat) : Nat := (m.dmem_ A).getD 0

/-- The post-load state is the same for every width: key `A` now maps to
the word that was observable there. -/
theorem DMEM.Load_snd (m : DMEM) (A : Nat) (w : Width) :
    (m.Load A w).2 = ⟨fun k => if k = A then some ((m.dmem_ A).getD 0) else m.dmem_ k⟩ := by
  cases w <;> rfl

/-- A load of a key whose observable word is zero returns zero at every
width. -/
theorem DMEM.Load_fst_of_readAt_zero (m : DMEM) (A : Nat) (w : Width)
    (h : m.readAt A = 0) : (m.Load A w).1 = 0 := by
  unfold DMEM.readAt at h
  cases w <;> simp [DMEM.Load, h, subRange, signBitN, signExtN]

theorem DMEM.readAt_step (m : DMEM) (op : MemOp) (A : Nat)
    (h0 : m.readAt A = 0) (hop : op.storesTo A = false) : (m.step op).readAt A = 0 := by
  cases op with
  | store wd a w =>
      simp only [MemOp.storesTo, beq_eq_false_iff_ne, ne_eq] at hop
      cases w <;>
        · simp only [DMEM.step, DMEM.Store, DMEM.readAt]
          rw [if_neg (fun hEq => hop hEq.symm)]
          exact h0
  | load a w =>
      simp only [DMEM.step, DMEM.readAt, DMEM.Load_snd]
      by_cases hA : A = a
      · subst hA
        simpa [DMEM.readAt] using h0
      · simpa [hA, DMEM.readAt] using h0

theorem DMEM.readAt_run (m : DMEM) (ops : List MemOp) (A : Nat)
    (h0 : m.readAt A = 0) (hops : ∀ op ∈ ops, op.storesTo A = false) :
    (m.run ops).readAt A = 0 := by
  induction ops generalizing m with
  | nil => exact h0
  | cons op rest ih =>
      exact ih (m.step op)
        (DMEM.readAt_step m op A h0 (hops op (List.mem_cons_self op rest)))
        (fun o ho => hops o (List.mem_cons_of_mem op ho))

/-- Claim C7: starting from the empty data memory, after any sequence of
stores and loads none of whose stores targets address `A`, a load of `A`
returns zero at every width, signed or unsigned. -/
theorem c7_theorem :
    ∀ (ops : List MemOp) (A : Nat) (w : Width),
      (∀ op ∈ ops, op.storesTo A = false) → ((DMEM.empty.run ops).Load A w).1 = 0 := by
  intro ops A w hops
  exact DMEM.Load_fst_of_readAt_zero _ _ _ (DMEM.readAt_run DMEM.empty ops A rfl hops)

/-- Claim C7, witness: a concrete run (a word store at address 4 and a load
at address 0) after which the byte load at address 0 returns zero. -/
theorem c7_witness :
    (∀ op ∈ [MemOp.store 7 4 Width.WORD, MemOp.load 0 Width.HALF],
        op.storesTo 0 = false) ∧
      ((DMEM.empty.run [MemOp.store 7 4 Width.WORD, MemOp.load 0 Width.HALF]).Load
          0 Width.BYTE).1 = 0 :=
  ⟨by decide, c7_theorem _ _ _ (by decide)⟩

/-! Observational equivalence of data-memory states: equal observable
words at every key. -/

def DMEM.ObsEq (m t : DMEM) : Prop := ∀ k, m.readAt k = t.readAt k

theorem DMEM.Load_fst_congr {m t : DMEM} (h : DMEM.ObsEq m t) (A : Nat) (w : Width) :
    (m.Load A w).1 = (t.Load A w).1 := by
  have hA := h A
  unfold DMEM.readAt at hA
  cases w <;> simp [DMEM.Load, hA]

theorem DMEM.ObsEq_Load_snd (m : DMEM) (A : Nat) (w : Width) :
    DMEM.ObsEq (m.Load A w).2 m := by
  intro k
  rw [DMEM.Load_snd]
  by_cases hk : k = A
  · subst hk
    simp [DMEM.readAt]
  · simp [DMEM.readAt, hk]

theorem DMEM.ObsEq_step {m t : DMEM} (h : DMEM.ObsEq m t) (op : MemOp) :
    DMEM.ObsEq (m.step op) (t.step op) := by
  cases op with
  | store wd a w =>
      intro k
      cases w <;> simp [DMEM.step, DMEM.Store, DMEM.readAt] <;>
        · by_cases hk : k = a
          · simp [hk]
          · simpa [hk] using h k
  | load a w =>
      intro k
      simp only [DMEM.step, DMEM.Load_snd]
      by_cases hk : k = a
      · subst hk
        simpa [DMEM.readAt] using h k
      · simpa [DMEM.readAt, hk] using h k

theorem DMEM.ObsEq_run {m t : DMEM} (h : DMEM.ObsEq m t) (ops : List MemOp) :
    DMEM.ObsEq (m.run ops) (t.run ops) := by
  induction ops generalizing m t with
  | nil => exact h
  | cons op rest ih => exact ih (DMEM.ObsEq_step h op)

/-- Claim C10: `DMEM::Load` is observationally pure: running any further
sequence of stores and loads after a load produces the same value at every
later load as running it without that load, even though the load mutates
the underlying sparse map by default-inserting a zero word. -/
theorem c10_theorem :
    ∀ (m : DMEM) (a : Nat) (w : Width) (ops : List MemOp) (a' : Nat) (w' : Width),
      (((m.Load a w).2.run ops).Load a' w').1 = ((m.run ops).Load a' w').1 := by
  intro m a w ops a' w'
  exact DMEM.Load_fst_congr (DMEM.ObsEq_run (DMEM.ObsEq_Load_snd m a w) ops) a' w'

/-! The immediate generator (`class IMM`): the `IMM(instr, is_jalr)`
constructor switches on the instruction format and assembles the 32-bit
immediate by concatenating replicated sign bits with bit sub-ranges of the
raw instruction word. -/

inductive Format
  | R
  | I
  | S
  | B
  | U
  | J

/-- Embedding of the immediate field the `IMM` constructor computes for
each instruction format (`Format::R` leaves the default-constructed zero;
`is_jalr` overrides the I immediate with the constant 4).  Each arm is the
`concat` of the C++ code written positionally: a `concat` of pieces of
widths `n1, n2, ...` is `(... (p1 * 2 ^ n2 + p2) * 2 ^ n3 + p3 ...)`. -/
def IMM.immOfFormat (fmt : Format) (is_jalr : Bool) (w : Nat) : Nat :=
  match fmt with
  | .R => 0
  | .I =>
      if is_jalr then 4
      else signExtN 21 (signBitN 32 w) * 2 ^ 11 + subRange 30 20 w
  | .S => (signExtN 21 (signBitN 32 w) * 2 ^ 6 + subRange 30 25 w) * 2 ^ 5 + subRange 11 7 w
  | .B =>
      (((signExtN 20 (signBitN 32 w) * 2 + subRange 7 7 w) * 2 ^ 6 + subRange 30 25 w) * 2 ^ 4 +
          subRange 11 8 w) * 2
  | .U => subRange 31 12 w * 2 ^ 12
  | .J =>
      (((signExtN 12 (signBitN 32 w) * 2 ^ 8 + subRange 19 12 w) * 2 + subRange 20 20 w) * 2 ^ 10 +
          subRange 30 21 w) * 2

/-- Immediate of the I format following the spec's words: bits `[31:20]`
read as a 12-bit two's-complement value, sign-extended to 32 bits. -/
def specImmI (w : Nat) : Nat := encode32 (toSigned 12 (subRange 31 20 w))

/-- Immediate of the S format following the spec's words: the 12-bit field
`{[31:25], [11:7]}` sign-extended. -/
def specImmS (w : Nat) : Nat :=
  encode32 (toSigned 12 (subRange 31 25 w * 2 ^ 5 + subRange 11 7 w))

/-- Immediate of the B format following the spec's words: the 13-bit field
`{[31], [7], [30:25], [11:8], 0}` sign-extended. -/
def specImmB (w : Nat) : Nat :=
  encode32 (toSigned 13
    ((((subRange 31 31 w * 2 + subRange 7 7 w) * 2 ^ 6 + subRange 30 25 w) * 2 ^ 4 +
        subRange 11 8 w) * 2))

/-- Immediate of the U format following the spec's words:
`{[31:12], 12'b0}`, no sign extension. -/
def specImmU (w : Nat) : Nat := subRange 31 12 w * 2 ^ 12

/-- Immediate of the J format following the spec's words: the 21-bit field
`{[31], [19:12], [20], [30:21], 0}` sign-extended. -/
def specImmJ (w : Nat) : Nat :=
  encode32 (toSigned 21
    ((((subRange 31 31 w * 2 ^ 8 + subRange 19 12 w) * 2 + subRange 20 20 w) * 2 ^ 10 +
        subRange 30 21 w) * 2))

theorem immI_eq_spec (w : Nat) :
    signExtN 21 (signBitN 32 w) * 2 ^ 11 + subRange 30 20 w = specImmI w := by
  simp only [specImmI, subRange, signExtN, signBitN, Nat.testBit_to_div_mod,
    encode32, toSigned]
  have hdd : w / 2 ^ 31 = w / 2 ^ 20 / 2 ^ 11 := by
    rw [Nat.div_div_eq_div_mul]; norm_num
  have hs : (w / 2 ^ 20) % 2 ^ (31 - 20 + 1) =
      w / 2 ^ 20 % 2 ^ 11 + 2 ^ 11 * (w / 2 ^ 31 % 2) := by
    rw [hdd]
    have h12 : (2 : Nat) ^ (31 - 20 + 1) = 2 ^ 11 * 2 := by norm_num
    rw [h12, Nat.mod_mul]
  rw [hs]
  have h1 : w / 2 ^ 31 % 2 < 2 := Nat.mod_lt _ (by norm_num)
  have h2 : w / 2 ^ 20 % 2 ^ 11 < 2 ^ 11 := Nat.mod_lt _ (by norm_num)
  have h3 : w / 2 ^ 20 % 2 ^ (30 - 20 + 1) < 2 ^ 11 := Nat.mod_lt _ (by norm_num)
  generalize w / 2 ^ 31 % 2 = b at *
  generalize w / 2 ^ 20 % 2 ^ 11 = u at *
  generalize w / 2 ^ 20 % 2 ^ (30 - 20 + 1) = v at *
  split_ifs <;> simp only [decide_eq_true_eq] at * <;> push_cast at * <;> omega

theorem immS_eq_spec (w : Nat) :
    (signExtN 21 (signBitN 32 w) * 2 ^ 6 + subRange 30 25 w) * 2 ^ 5 + subRange 11 7 w =
      specImmS w := by
  simp only [specImmS, subRange, signExtN, signBitN, Nat.testBit_to_div_mod,
    encode32, toSigned]
  have hdd : w / 2 ^ 31 = w / 2 ^ 25 / 2 ^ 6 := by
    rw [Nat.div_div_eq_div_mul]; norm_num
  have hs : (w / 2 ^ 25) % 2 ^ (31 - 25 + 1) =
      w / 2 ^ 25 % 2 ^ 6 + 2 ^ 6 * (w / 2 ^ 31 % 2) := by
    rw [hdd]
    have h7 : (2 : Nat) ^ (31 - 25 + 1) = 2 ^ 6 * 2 := by norm_num
    rw [h7, Nat.mod_mul]
  rw [hs]
  have h1 : w / 2 ^ 31 % 2 < 2 := Nat.mod_lt _ (by norm_num)
  have h2 : w / 2 ^ 25 % 2 ^ 6 < 2 ^ 6 := Nat.mod_lt _ (by norm_num)
  have h3 : w / 2 ^ 25 % 2 ^ (30 - 25 + 1) < 2 ^ 6 := Nat.mod_lt _ (by norm_num)
  have h4 : w / 2 ^ 7 % 2 ^ (11 - 7 + 1) < 2 ^ 5 := Nat.mod_lt _ (by norm_num)
  generalize w / 2 ^ 31 % 2 = b at *
  generalize w / 2 ^ 25 % 2 ^ 6 = u at *
  generalize w / 2 ^ 25 % 2 ^ (30 - 25 + 1) = s at *
  generalize w / 2 ^ 7 % 2 ^ (11 - 7 + 1) = v at *
  split_ifs <;> simp only [decide_eq_true_eq] at * <;> push_cast at * <;> omega

theorem immB_eq_spec (w : Nat) :
    (((signExtN 20 (signBitN 32 w) * 2 + subRange 7 7 w) * 2 ^ 6 + subRange 30 25 w) * 2 ^ 4 +
        subRange 11 8 w) * 2 = specImmB w := by
  simp only [specImmB, subRange, signExtN, signBitN, Nat.testBit_to_div_mod,
    encode32, toSigned]
  have hs : (w / 2 ^ 31) % 2 ^ (31 - 31 + 1) = w / 2 ^ 31 % 2 := by norm_num
  rw [hs]
  have h1 : w / 2 ^ 31 % 2 < 2 := Nat.mod_lt _ (by norm_num)
  have h2 : w / 2 ^ 7 % 2 ^ (7 - 7 + 1) < 2 := Nat.mod_lt _ (by norm_num)
  have h3 : w / 2 ^ 25 % 2 ^ (30 - 25 + 1) < 2 ^ 6 := Nat.mod_lt _ (by norm_num)
  have h4 : w / 2 ^ 8 % 2 ^ (11 - 8 + 1) < 2 ^ 4 := Nat.mod_lt _ (by norm_num)
  generalize w / 2 ^ 31 % 2 = b at *
  generalize w / 2 ^ 7 % 2 ^ (7 - 7 + 1) = c at *
  generalize w / 2 ^ 25 % 2 ^ (30 - 25 + 1) = u at *
  generalize w / 2 ^ 8 % 2 ^ (11 - 8 + 1) = v at *
  split_ifs <;> simp only [decide_eq_true_eq] at * <;> push_cast at * <;> omega

theorem immJ_eq_spec (w : Nat) :
    (((signExtN 12 (signBitN 32 w) * 2 ^ 8 + subRange 19 12 w) * 2 + subRange 20 20 w) * 2 ^ 10 +
        subRange 30 21 w) * 2 = specImmJ w := by
  simp only [specImmJ, subRange, signExtN, signBitN, Nat.testBit_to_div_mod,
    encode32, toSigned]
  have hs : (w / 2 ^ 31) % 2 ^ (31 - 31 + 1) = w / 2 ^ 31 % 2 := by norm_num
  rw [hs]
  have h1 : w / 2 ^ 31 % 2 < 2 := Nat.mod_lt _ (by norm_num)
  have h2 : w / 2 ^ 12 % 2 ^ (19 - 12 + 1) < 2 ^ 8 := Nat.mod_lt _ (by norm_num)
  have h3 : w / 2 ^ 20 % 2 ^ (20 - 20 + 1) < 2 := Nat.mod_lt _ (by norm_num)
  have h4 : w / 2 ^ 21 % 2 ^ (30 - 21 + 1) < 2 ^ 10 := Nat.mod_lt _ (by norm_num)
  generalize w / 2 ^ 31 % 2 = b at *
  generalize w / 2 ^ 12 % 2 ^ (19 - 12 + 1) = c at *
  generalize w / 2 ^ 20 % 2 ^ (20 - 20 + 1) = u at *
  generalize w / 2 ^ 21 % 2 ^ (30 - 21 + 1) = v at *
  split_ifs <;> simp only [decide_eq_true_eq] at * <;> push_cast at * <;> omega

/-- Claim C5: for every 32-bit instruction word, the immediate generator
produces the bit-exact sign-extended immediate of each format: I is the
sign extension of bits `[31:20]`, S of `{[31:25],[11:7]}`, B of
`{[31],[7],[30:25],[11:8],0}`, U is `{[31:12], 12'b0}`, and J is the sign
extension of `{[31],[19:12],[20],[30:21],0}`. -/
theorem c5_theorem :
    ∀ w : Nat, w < 2 ^ 32 →
      IMM.immOfFormat .I false w = specImmI w ∧
        IMM.immOfFormat .S false w = specImmS w ∧
          IMM.immOfFormat .B false w = specImmB w ∧
            IMM.immOfFormat .U false w = specImmU w ∧
              IMM.immOfFormat .J false w = specImmJ w := by
  intro w _
  refine ⟨?_, ?_, ?_, ?_, ?_⟩
  · simpa [IMM.immOfFormat] using immI_eq_spec w
  · simpa [IMM.immOfFormat] using immS_eq_spec w
  · simpa [IMM.immOfFormat] using immB_eq_spec w
  · rfl
  · simpa [IMM.immOfFormat] using immJ_eq_spec w

/-- Claim C5, witness: the correspondence instantiated at the concrete
instruction word `0x87654321`. -/
theorem c5_witness :
    (0x87654321 : Nat) < 2 ^ 32 ∧
      (IMM.immOfFormat .I false 0x87654321 = specImmI 0x87654321 ∧
        IMM.immOfFormat .S false 0x87654321 = specImmS 0x87654321 ∧
          IMM.immOfFormat .B false 0x87654321 = specImmB 0x87654321 ∧
            IMM.immOfFormat .U false 0x87654321 = specImmU 0x87654321 ∧
              IMM.immOfFormat .J false 0x87654321 = specImmJ 0x87654321) :=
  ⟨by norm_num, c5_theorem 0x87654321 (by norm_num)⟩

/-! The ALU (`class ALU`): `calc` switches on the operation; shifts and
arithmetic are performed on `to_ulong()` values (64-bit unsigned), then
truncated back to 32 bits by the `bitset<32>` result; SRA and SLT first
reinterpret the operand through `static_cast<int32_t>`. -/

inductive ALUOp
  | ADD
  | SUB
  | XOR
  | OR
  | AND
  | SLL
  | SRL
  | SRA
  | SLT
  | SLTU

/-- Embedding of `ALU::calc(lhs, rhs, alu_op)` for 32-bit operands.
`SUB` wraps modulo `2 ^ 32`; `SLL` discards bits shifted past bit 31;
`SRA` is the C++ arithmetic right shift of the `int32_t` reinterpretation,
i.e. floor division by `2 ^ rhs`, truncated back to 32 bits. -/
def ALU.calc (lhs rhs : Nat) (alu_op : ALUOp) : Nat :=
  match alu_op with
  | .ADD => (lhs + rhs) % 2 ^ 32
  | .SUB => encode32 ((lhs : Int) - (rhs : Int))
  | .XOR => lhs ^^^ rhs
  | .OR => lhs ||| rhs
  | .AND => lhs &&& rhs
  | .SLL => (lhs <<< rhs) % 2 ^ 32
  | .SRL => lhs >>> rhs
  | .SRA => encode32 (Int.fdiv (toSigned 32 lhs) (2 ^ rhs))
  | .SLT => if toSigned 32 lhs < toSigned 32 rhs then 1 else 0
  | .SLTU => if lhs < rhs then 1 else 0

/-- The arithmetic right shift as the spec words it: the operand shifted
right by `rhs`, with the sign bit (bit 31) replicated into the `rhs`
vacated high bits. -/
def sraSpec (lhs rhs : Nat) : Nat :=
  lhs / 2 ^ rhs % 2 ^ (32 - rhs) +
    (if lhs.testBit 31 then (2 ^ rhs - 1) * 2 ^ (32 - rhs) else 0)

/-- Claim C8: for every 32-bit operand and shift amount below 32,
`ALU::calc(lhs, rhs, Op::SRA)` is the arithmetic right shift of `lhs`
read as a 32-bit two's-complement value: the low `32 - rhs` result bits
are `lhs >> rhs` and the vacated high bits replicate the sign bit. -/
theorem c8_theorem :
    ∀ (lhs rhs : Nat), lhs < 2 ^ 32 → rhs < 32 →
      ALU.calc lhs rhs .SRA = sraSpec lhs rhs := by
  intro lhs rhs h1 h2
  have hkpos : (0 : Int) < (2 : Int) ^ rhs := by positivity
  have hkm : (2 : Nat) ^ rhs * 2 ^ (32 - rhs) = 2 ^ 32 := by
    rw [← pow_add]
    congr 1
    omega
  have hqlt : lhs / 2 ^ rhs < 2 ^ (32 - rhs) := by
    rw [Nat.div_lt_iff_lt_mul (Nat.pos_pow_of_pos rhs (by norm_num))]
    calc lhs < 2 ^ 32 := h1
    _ = 2 ^ (32 - rhs) * 2 ^ rhs := by rw [mul_comm]; exact hkm.symm
  have hqm : lhs / 2 ^ rhs % 2 ^ (32 - rhs) = lhs / 2 ^ rhs := Nat.mod_eq_of_lt hqlt
  have hmle : (2 : Nat) ^ (32 - rhs) ≤ 2 ^ 32 := Nat.pow_le_pow_right (by norm_num) (by omega)
  have hMc : ((2 ^ (32 - rhs) : Nat) : Int) = (2 : Int) ^ (32 - rhs) := by push_cast; rfl
  simp only [ALU.calc, sraSpec, encode32, toSigned, Nat.testBit_to_div_mod, hqm]
  rw [Int.fdiv_eq_ediv _ (le_of_lt hkpos)]
  by_cases hsign : lhs < 2 ^ 31
  · have hbit : lhs / 2 ^ 31 % 2 = 0 := by
      rw [Nat.div_eq_of_lt hsign]
    rw [if_pos (show lhs < 2 ^ (32 - 1) from hsign), hbit,
      if_neg (show ¬(decide ((0 : Nat) = 1) = true) from by simp)]
    rw [show ((lhs : Int)) / (2 : Int) ^ rhs = ((lhs / 2 ^ rhs : Nat) : Int) by push_cast; rfl]
    generalize (2 : Nat) ^ (32 - rhs) = M at hqlt hmle
    omega
  · have hbit : lhs / 2 ^ 31 % 2 = 1 := by omega
    rw [if_neg (show ¬lhs < 2 ^ (32 - 1) from hsign), hbit,
      if_pos (show decide ((1 : Nat) = 1) = true from by simp)]
    have hdm : (2 : Int) ^ rhs * ((lhs / 2 ^ rhs : Nat) : Int) + ((lhs % 2 ^ rhs : Nat) : Int)
        = (lhs : Int) := by
      exact_mod_cast Nat.div_add_mod lhs (2 ^ rhs)
    have hkm' : (2 : Int) ^ rhs * (2 : Int) ^ (32 - rhs) = 2 ^ 32 := by exact_mod_cast hkm
    have hsplit : (lhs : Int) - 2 ^ 32 =
        ((lhs % 2 ^ rhs : Nat) : Int) +
          (((lhs / 2 ^ rhs : Nat) : Int) - 2 ^ (32 - rhs)) * 2 ^ rhs := by
      linear_combination hkm' - hdm
    rw [hsplit, Int.add_mul_ediv_right _ _ (ne_of_gt hkpos),
      Int.ediv_eq_zero_of_lt (by positivity)
        (by exact_mod_cast Nat.mod_lt lhs (Nat.pos_pow_of_pos rhs (by norm_num)))]
    have hsub : ((2 ^ rhs - 1) * 2 ^ (32 - rhs) : Nat) = 2 ^ 32 - 2 ^ (32 - rhs) := by
      rw [Nat.sub_mul, one_mul, hkm]
    rw [hsub, ← hMc]
    generalize (2 : Nat) ^ (32 - rhs) = M at hqlt hmle ⊢
    omega

/-- Claim C8, witness: the shift of the negative operand `0x80000000` by 4
positions, where the theorem applies and both sides evaluate. -/
theorem c8_witness :
    (0x80000000 : Nat) < 2 ^ 32 ∧ (4 : Nat) < 32 ∧
      ALU.calc 0x80000000 4 .SRA = sraSpec 0x80000000 4 :=
  ⟨by norm_num, by norm_num, c8_theorem 0x80000000 4 (by norm_num) (by norm_num)⟩

end RiscvSim
